import Mathlib

/-!
Shallow embedding of the upload coordination engine of
`src/services/UploadQueueService.ts` (class `UploadQueueService`).

Timestamps are modelled as natural numbers (milliseconds); the ISO-string
timestamps of the source are compared only through `Date` arithmetic, which
this ordering reflects.  Job objects are held in an append-only store
`QueueState.jobs`; a job reference is its index in that store, which models
the shared mutable job objects of the source (the queue, the in-flight
closures and the store all alias the same record).  The set `inFlight`
records the jobs whose asynchronous `uploadPhoto` call has been started and
has not yet reached its success or failure continuation.
-/

inductive JobStatus where
  | pending
  | uploading
  | completed
  | failed
deriving DecidableEq, Repr

structure UploadJob where
  id : String
  photoId : String
  intakeId : String
  status : JobStatus
  priority : Nat
  createdAt : Nat
  lastAttempt : Option Nat := none
  attempts : Nat
  maxAttempts : Nat
  nextRetryAt : Option Nat := none
  lastError : Option String := none
deriving DecidableEq, Repr

def MAX_CONCURRENT_UPLOADS : Nat := 2

def MAX_RETRY_ATTEMPTS : Nat := 5

def RETRY_DELAYS : List Nat := [1000, 2000, 4000, 8000, 16000]

/-- The delay picked by `handleUploadFailure`:
`RETRY_DELAYS[Math.min(job.attempts - 1, RETRY_DELAYS.length - 1)]`.
Every call site has `attempts ≥ 1` (the counter is incremented when the
attempt starts), where the truncated subtraction agrees with the source. -/
def retryDelay (attempts : Nat) : Nat :=
  RETRY_DELAYS.getD (min (attempts - 1) (RETRY_DELAYS.length - 1)) 0

/-- The mutation `handleUploadFailure` applies to the failed job record
(source lines 388-400): mark it failed, record the error, and when
`attempts < maxAttempts` schedule `nextRetryAt` and bump the priority,
capped at 10.  The status is never set back to `pending`. -/
def handleUploadFailure (job : UploadJob) (errorMsg : String) (now : Nat) : UploadJob :=
  let job := { job with status := JobStatus.failed, lastError := some errorMsg }
  if job.attempts < job.maxAttempts then
    { job with
        nextRetryAt := some (now + retryDelay job.attempts),
        priority := min (job.priority + 1) 10 }
  else
    { job with status := JobStatus.failed }

/-- The mutation `retryUpload` applies to the first queue job with the given
photo id (source lines 101-105), applied whatever the job's status is;
`lastError` is left untouched. -/
def retryReset (job : UploadJob) : UploadJob :=
  { job with status := JobStatus.pending, attempts := 0, nextRetryAt := none }

/-- The job record built by `addPhotoToQueue` (source lines 46-55). -/
def mkJob (photoId intakeId : String) (now : Nat) : UploadJob :=
  { id := "upload_" ++ photoId
    photoId := photoId
    intakeId := intakeId
    status := JobStatus.pending
    priority := 1
    createdAt := now
    attempts := 0
    maxAttempts := MAX_RETRY_ATTEMPTS }

structure QueueState where
  jobs : List UploadJob
  uploadQueue : List Nat
  activeUploads : List String
  inFlight : List Nat
deriving DecidableEq, Repr

def initState : QueueState := ⟨[], [], [], []⟩

/-- Update the job record at index `r`; out-of-range indices are left
unchanged (they never occur in reachable states). -/
def listModify : List UploadJob → Nat → (UploadJob → UploadJob) → List UploadJob
  | [], _, _ => []
  | j :: l, 0, f => f j :: l
  | j :: l, n + 1, f => j :: listModify l n f

def jobAt (s : QueueState) (r : Nat) : Option UploadJob := s.jobs[r]?

def statusAt (s : QueueState) (r : Nat) : Option JobStatus := (jobAt s r).map (·.status)

def pidAt (s : QueueState) (r : Nat) : String := ((jobAt s r).map (·.photoId)).getD ""

/-- The queue as (reference, record) pairs, in queue order. -/
def queueJobs (s : QueueState) : List (Nat × UploadJob) :=
  s.uploadQueue.filterMap (fun r => (s.jobs[r]?).map (fun j => (r, j)))

/-- The filter of `getNextJob` (source line 186):
`job.status === 'pending' && !this.activeUploads.has(job.photoId)`. -/
def isCandidate (s : QueueState) (j : UploadJob) : Bool :=
  decide (j.status = JobStatus.pending) && !(s.activeUploads.contains j.photoId)

def candidatePairs (s : QueueState) : List (Nat × UploadJob) :=
  (queueJobs s).filter (fun rj => isCandidate s rj.2)

/-- The sort comparator of `getNextJob` (source lines 187-192), as the
relation "`a` sorts before or ties with `b`": higher priority first, ties by
older `createdAt` first. -/
def jobLE (a b : UploadJob) : Bool :=
  decide (b.priority < a.priority) ||
    (decide (a.priority = b.priority) && decide (a.createdAt ≤ b.createdAt))

def pairLEP (a b : Nat × UploadJob) : Prop := jobLE a.2 b.2 = true

instance : DecidableRel pairLEP := fun a b => inferInstanceAs (Decidable (_ = true))

def sortJobs (l : List (Nat × UploadJob)) : List (Nat × UploadJob) :=
  List.insertionSort pairLEP l

/-- `getNextJob` (source lines 183-195): sort the pending, not-in-flight jobs
and return the first, or null. -/
def getNextJob (s : QueueState) : Option (Nat × UploadJob) :=
  (sortJobs (candidatePairs s)).head?

/-- The guard of `processQueue` at source line 167:
`job.nextRetryAt && new Date(job.nextRetryAt) > new Date()`. -/
def retryBlocked (j : UploadJob) (now : Nat) : Bool :=
  match j.nextRetryAt with
  | some t => decide (now < t)
  | none => false

/-- Admission of a selected job (source lines 171-173 plus the synchronous
prefix of `uploadPhoto`, lines 205-207): add the photo id to
`activeUploads`, mark the record `uploading`, stamp `lastAttempt`,
increment `attempts`, and start the asynchronous flight. -/
def startUpload (s : QueueState) (r : Nat) (pid : String) (now : Nat) : QueueState :=
  { s with
      jobs := listModify s.jobs r (fun j =>
        { j with status := JobStatus.uploading, lastAttempt := some now,
                 attempts := j.attempts + 1 })
      activeUploads :=
        if s.activeUploads.contains pid then s.activeUploads else pid :: s.activeUploads
      inFlight := r :: s.inFlight }

/-- The `while` loop of `processQueue` (source lines 160-174), with explicit
fuel.  Each iteration checks the queue-nonempty and concurrency guards,
selects `getNextJob`, stops the whole pass if the selected job's
`nextRetryAt` is still in the future, and otherwise admits it. -/
def processQueueAux : QueueState → Nat → Nat → QueueState
  | s, _, 0 => s
  | s, now, fuel + 1 =>
    if s.uploadQueue.length = 0 then s
    else if MAX_CONCURRENT_UPLOADS ≤ s.activeUploads.length then s
    else
      match getNextJob s with
      | none => s
      | some (r, j) =>
        if retryBlocked j now then s
        else processQueueAux (startUpload s r j.photoId now) now fuel

/-- One `processQueue` pass.  The queue length bounds the number of
admissions (each admission turns one pending candidate into `uploading`),
so it is sufficient fuel for the loop to reach its fixed point. -/
def processQueue (s : QueueState) (now : Nat) : QueueState :=
  processQueueAux s now s.uploadQueue.length

/-- `addPhotoToQueue` (source lines 44-72): unconditionally append a fresh
job for the photo, persist it, and run a processing pass. -/
def addPhotoToQueue (s : QueueState) (pid iid : String) (now : Nat) : QueueState :=
  processQueue
    { s with
        jobs := s.jobs ++ [mkJob pid iid now]
        uploadQueue := s.uploadQueue ++ [s.jobs.length] }
    now

/-- `removePhotoFromQueue` (source lines 77-94): drop every queue entry for
the photo id and forget it in `activeUploads`; a running flight is not
stopped and keeps its reference to the job record. -/
def removePhotoFromQueue (s : QueueState) (pid : String) : QueueState :=
  { s with
      uploadQueue := s.uploadQueue.filter (fun r =>
        match s.jobs[r]? with
        | some j => !(j.photoId == pid)
        | none => true)
      activeUploads := s.activeUploads.erase pid }

/-- `retryUpload` (source lines 99-118): find the first queue job with the
photo id (no status check), reset it, and run a processing pass; when no
job is found nothing happens. -/
def retryUpload (s : QueueState) (pid : String) (now : Nat) : QueueState :=
  match (queueJobs s).find? (fun rj => rj.2.photoId == pid) with
  | none => s
  | some (r, _) => processQueue { s with jobs := listModify s.jobs r retryReset } now

/-- The success continuation of `uploadPhoto` (source lines 241-256): mark
completed, leave `activeUploads`, and drop every queue entry whose job id
equals this job's id. -/
def finishSuccess (s : QueueState) (r : Nat) : QueueState :=
  match s.jobs[r]? with
  | none => s
  | some j =>
    { s with
        jobs := listModify s.jobs r (fun j' => { j' with status := JobStatus.completed })
        activeUploads := s.activeUploads.erase j.photoId
        uploadQueue := s.uploadQueue.filter (fun r' =>
          match s.jobs[r']? with
          | some j' => !(j'.id == j.id)
          | none => true)
        inFlight := s.inFlight.erase r }

/-- The failure continuation of `uploadPhoto` (source lines 260-265 and
388-413), without the trailing `processQueue` call, which the event layer
applies. -/
def applyFailure (s : QueueState) (r : Nat) (msg : String) (now : Nat) : QueueState :=
  { s with
      jobs := listModify s.jobs r (fun j => handleUploadFailure j msg now)
      activeUploads :=
        match s.jobs[r]? with
        | some j => s.activeUploads.erase j.photoId
        | none => s.activeUploads
      inFlight := s.inFlight.erase r }

/-- External and asynchronous events driving the scheduler: the public
operations, a bare processing pass (`initialize`), and the completion of an
in-flight transfer with success or failure. -/
inductive Event where
  | enqueue (pid iid : String) (now : Nat)
  | remove (pid : String)
  | retry (pid : String) (now : Nat)
  | success (r : Nat)
  | fail (r : Nat) (msg : String) (now : Nat)
  | pass (now : Nat)

def Event.isRemove : Event → Bool
  | .remove _ => true
  | _ => false

def applyEvent (s : QueueState) : Event → QueueState
  | .enqueue pid iid now => addPhotoToQueue s pid iid now
  | .remove pid => removePhotoFromQueue s pid
  | .retry pid now => retryUpload s pid now
  | .success r => if s.inFlight.contains r then finishSuccess s r else s
  | .fail r msg now =>
    if s.inFlight.contains r then processQueue (applyFailure s r msg now) now else s
  | .pass now => processQueue s now

def applyEvents (s : QueueState) (es : List Event) : QueueState :=
  es.foldl applyEvent s

/-- States reachable from the empty scheduler through events satisfying
`ok`. -/
inductive ReachableW (ok : Event → Prop) : QueueState → Prop
  | init : ReachableW ok initState
  | step {s : QueueState} {e : Event} :
      ok e → ReachableW ok s → ReachableW ok (applyEvent s e)

def Reachable : QueueState → Prop := ReachableW (fun _ => True)

/-- Reachable through enqueue / retry / completion / failure / pass events,
with no cancellation (`removePhotoFromQueue`). -/
def ReachableNR : QueueState → Prop := ReachableW (fun e => e.isRemove = false)

/-!  Progress-callback registry (`progressCallbacks`), modelled as an
association list keyed by photo id; callbacks are opaque tokens. -/

def mapSet (m : List (String × Nat)) (k : String) (v : Nat) : List (String × Nat) :=
  if m.any (fun kv => kv.1 == k) then
    m.map (fun kv => if kv.1 == k then (k, v) else kv)
  else m ++ [(k, v)]

def mapDelete (m : List (String × Nat)) (k : String) : List (String × Nat) :=
  m.filter (fun kv => !(kv.1 == k))

def mapLookup (m : List (String × Nat)) (k : String) : Option Nat :=
  (m.find? (fun kv => kv.1 == k)).map (·.2)

/-- `subscribeToProgress` (source lines 140-147): register the callback for
the photo id, returning the new registry; the returned unsubscribe closure
performs `progressCallbacks.delete(photoId)` on whatever registry state is
current when invoked, which `unsubscribeEffect` models. -/
def subscribeToProgress (m : List (String × Nat)) (photoId : String) (cb : Nat) :
    List (String × Nat) :=
  mapSet m photoId cb

def unsubscribeEffect (photoId : String) (m : List (String × Nat)) :
    List (String × Nat) :=
  mapDelete m photoId

/-- The callback `notifyProgress` (source lines 440-445) would invoke:
the one registered for the photo id, if any. -/
def notifyTarget (m : List (String × Nat)) (photoId : String) : Option Nat :=
  mapLookup m photoId

/-!  Basic lemmas about `listModify`. -/

theorem listModify_length (l : List UploadJob) (r : Nat) (f : UploadJob → UploadJob) :
    (listModify l r f).length = l.length := by
  induction l generalizing r with
  | nil => rfl
  | cons a t ih =>
    cases r with
    | zero => rfl
    | succ n => simpa [listModify] using ih n

theorem listModify_getElem?_self (l : List UploadJob) (r : Nat) (f : UploadJob → UploadJob) :
    (listModify l r f)[r]? = (l[r]?).map f := by
  induction l generalizing r with
  | nil => simp [listModify]
  | cons a t ih =>
    cases r with
    | zero => simp [listModify]
    | succ n => simpa [listModify] using ih n

theorem listModify_getElem?_ne (l : List UploadJob) (r : Nat) (f : UploadJob → UploadJob)
    {i : Nat} (h : i ≠ r) : (listModify l r f)[i]? = l[i]? := by
  induction l generalizing r i with
  | nil => simp [listModify]
  | cons a t ih =>
    cases r with
    | zero =>
      cases i with
      | zero => exact absurd rfl h
      | succ m => simp [listModify]
    | succ n =>
      cases i with
      | zero => simp [listModify]
      | succ m =>
        have : m ≠ n := fun hc => h (by simp [hc])
        simpa [listModify] using ih n this

theorem map_erase_of_nodup_map {α β : Type} [DecidableEq α] [DecidableEq β]
    {f : α → β} {l : List α} (hn : (l.map f).Nodup) {a : α} (ha : a ∈ l) :
    (l.erase a).map f = (l.map f).erase (f a) := by
  induction l with
  | nil => simp
  | cons b t ih =>
    by_cases hba : b = a
    · subst hba
      simp [List.erase_cons]
    · have hat : a ∈ t := by
        rcases List.mem_cons.mp ha with h | h
        · exact absurd h.symm hba
        · exact h
      have hfb : f b ∉ t.map f := (List.nodup_cons.mp hn).1
      have hfa : f a ∈ t.map f := List.mem_map_of_mem f hat
      have hfba : f b ≠ f a := fun hc => hfb (hc ▸ hfa)
      have hnt : (t.map f).Nodup := (List.nodup_cons.mp hn).2
      simp [List.erase_cons, hba, hfba, ih hnt hat]

theorem length_le_one_of_nodup_forall_eq {α : Type} {l : List α} (hd : l.Nodup)
    (h : ∀ a ∈ l, ∀ b ∈ l, a = b) : l.length ≤ 1 := by
  match l with
  | [] => simp
  | [x] => simp
  | x :: y :: t =>
    have hxy : x = y := h x (by simp) y (by simp)
    have hne : x ≠ y := by
      have := List.nodup_cons.mp hd
      exact fun hc => this.1 (hc ▸ List.mem_cons_self y t)
    exact absurd hxy hne

/-!  Membership and selection lemmas. -/

theorem mem_queueJobs {s : QueueState} {r : Nat} {j : UploadJob} :
    (r, j) ∈ queueJobs s ↔ r ∈ s.uploadQueue ∧ s.jobs[r]? = some j := by
  constructor
  · intro h
    rcases List.mem_filterMap.mp h with ⟨r', hr', heq⟩
    rcases Option.map_eq_some'.mp heq with ⟨j', hj', hpair⟩
    cases hpair
    exact ⟨hr', hj'⟩
  · rintro ⟨hr, hj⟩
    exact List.mem_filterMap.mpr ⟨r, hr, by simp [hj]⟩

theorem mem_candidatePairs {s : QueueState} {r : Nat} {j : UploadJob} :
    (r, j) ∈ candidatePairs s ↔
      (r ∈ s.uploadQueue ∧ s.jobs[r]? = some j) ∧
        j.status = JobStatus.pending ∧ j.photoId ∉ s.activeUploads := by
  unfold candidatePairs
  rw [List.mem_filter, mem_queueJobs]
  unfold isCandidate
  simp [List.contains]

theorem jobLE_iff {a b : UploadJob} :
    jobLE a b = true ↔
      b.priority < a.priority ∨ (a.priority = b.priority ∧ a.createdAt ≤ b.createdAt) := by
  simp [jobLE]

instance : IsTotal (Nat × UploadJob) pairLEP := by
  constructor
  intro a b
  unfold pairLEP
  rw [jobLE_iff, jobLE_iff]
  omega

instance : IsTrans (Nat × UploadJob) pairLEP := by
  constructor
  intro a b c hab hbc
  unfold pairLEP at *
  rw [jobLE_iff] at *
  omega

theorem jobLE_refl (a : UploadJob) : jobLE a a = true := by
  rw [jobLE_iff]
  omega

theorem getNextJob_mem {s : QueueState} {r : Nat} {j : UploadJob}
    (h : getNextJob s = some (r, j)) : (r, j) ∈ candidatePairs s := by
  unfold getNextJob sortJobs at h
  have hmem : (r, j) ∈ List.insertionSort pairLEP (candidatePairs s) := by
    cases hl : List.insertionSort pairLEP (candidatePairs s) with
    | nil => rw [hl] at h; simp at h
    | cons x t =>
      rw [hl] at h
      simp at h
      rw [← h]
      exact List.mem_cons_self _ _
  exact (List.mem_insertionSort pairLEP).mp hmem

theorem getNextJob_le {s : QueueState} {r : Nat} {j : UploadJob}
    (h : getNextJob s = some (r, j)) :
    ∀ k ∈ candidatePairs s, jobLE j k.2 = true := by
  intro k hk
  unfold getNextJob sortJobs at h
  cases hl : List.insertionSort pairLEP (candidatePairs s) with
  | nil => rw [hl] at h; simp at h
  | cons x t =>
    rw [hl] at h
    simp at h
    have hsorted : List.Sorted pairLEP (x :: t) :=
      hl ▸ List.sorted_insertionSort pairLEP (candidatePairs s)
    have hkmem : k ∈ x :: t := by
      rw [← hl]
      exact (List.mem_insertionSort pairLEP).mpr hk
    rcases List.mem_cons.mp hkmem with hkx | hkt
    · subst hkx
      rw [h]
      exact jobLE_refl _
    · have := List.rel_of_sorted_cons hsorted k hkt
      rw [h] at this
      exact this

theorem getNextJob_queue_ne_nil {s : QueueState} {x : Nat × UploadJob}
    (h : getNextJob s = some x) : s.uploadQueue.length ≠ 0 := by
  obtain ⟨r, j⟩ := x
  have hmem := getNextJob_mem h
  have hr : r ∈ s.uploadQueue := (mem_candidatePairs.mp hmem).1.1
  intro hlen
  rw [List.length_eq_zero] at hlen
  rw [hlen] at hr
  simp at hr

/-- All facts admission needs about the job `getNextJob` selects. -/
theorem admission_facts {s : QueueState} {r : Nat} {j : UploadJob}
    (h : getNextJob s = some (r, j)) :
    s.jobs[r]? = some j ∧ r ∈ s.uploadQueue ∧ j.status = JobStatus.pending ∧
      j.photoId ∉ s.activeUploads := by
  have hm := mem_candidatePairs.mp (getNextJob_mem h)
  exact ⟨hm.1.2, hm.1.1, hm.2.1, hm.2.2⟩

/-- Generic induction principle for the `processQueue` loop: any property
preserved by admitting the selected job (under the loop's guards) is
preserved by a whole pass. -/
theorem processQueueAux_ind {P : QueueState → Prop}
    (hstep : ∀ s r j now, P s → getNextJob s = some (r, j) →
      s.activeUploads.length < MAX_CONCURRENT_UPLOADS → retryBlocked j now = false →
      P (startUpload s r j.photoId now)) :
    ∀ fuel s now, P s → P (processQueueAux s now fuel) := by
  intro fuel
  induction fuel with
  | zero => intro s now hP; exact hP
  | succ n ih =>
    intro s now hP
    unfold processQueueAux
    by_cases h1 : s.uploadQueue.length = 0
    · rw [if_pos h1]; exact hP
    · rw [if_neg h1]
      by_cases h2 : MAX_CONCURRENT_UPLOADS ≤ s.activeUploads.length
      · rw [if_pos h2]; exact hP
      · rw [if_neg h2]
        cases hg : getNextJob s with
        | none => exact hP
        | some rj =>
          obtain ⟨r, j⟩ := rj
          show P (if retryBlocked j now = true then s
            else processQueueAux (startUpload s r j.photoId now) now n)
          by_cases hrb : retryBlocked j now = true
          · rw [if_pos hrb]; exact hP
          · rw [if_neg hrb]
            exact ih _ now (hstep s r j now hP hg (by omega) (by simpa using hrb))

/-!  Transport lemmas: record updates that keep `photoId` keep `pidAt`, and
keep the status of other records. -/

theorem getElem?_some_lt {l : List UploadJob} {r : Nat} {j : UploadJob}
    (h : l[r]? = some j) : r < l.length := by
  rcases List.getElem?_eq_some.mp h with ⟨hlt, _⟩
  exact hlt

theorem pid_getElem?_listModify {l : List UploadJob} {r0 : Nat} {f : UploadJob → UploadJob}
    (hf : ∀ j, (f j).photoId = j.photoId) (r : Nat) :
    ((listModify l r0 f)[r]?).map (·.photoId) = (l[r]?).map (·.photoId) := by
  by_cases h : r = r0
  · subst h
    rw [listModify_getElem?_self]
    cases l[r]? <;> simp [hf]
  · rw [listModify_getElem?_ne _ _ _ h]

theorem handleUploadFailure_photoId (j : UploadJob) (msg : String) (now : Nat) :
    (handleUploadFailure j msg now).photoId = j.photoId := by
  unfold handleUploadFailure
  dsimp only
  split <;> rfl

theorem handleUploadFailure_status (j : UploadJob) (msg : String) (now : Nat) :
    (handleUploadFailure j msg now).status = JobStatus.failed := by
  unfold handleUploadFailure
  dsimp only
  split <;> rfl

theorem handleUploadFailure_attempts (j : UploadJob) (msg : String) (now : Nat) :
    (handleUploadFailure j msg now).attempts = j.attempts := by
  unfold handleUploadFailure
  dsimp only
  split <;> rfl

theorem handleUploadFailure_maxAttempts (j : UploadJob) (msg : String) (now : Nat) :
    (handleUploadFailure j msg now).maxAttempts = j.maxAttempts := by
  unfold handleUploadFailure
  dsimp only
  split <;> rfl

/-- The single-flight / bounded-concurrency invariant of the scheduler,
maintained by every event other than `removePhotoFromQueue`:
`activeUploads` is exactly the list of photo ids of the in-flight jobs,
it has no duplicates and respects the cap, every job record in status
`uploading` is in flight, and in-flight references are valid. -/
structure SchedInv (s : QueueState) : Prop where
  actEq : s.activeUploads = s.inFlight.map (pidAt s)
  actNodup : s.activeUploads.Nodup
  actLen : s.activeUploads.length ≤ MAX_CONCURRENT_UPLOADS
  upFlight : ∀ r, statusAt s r = some JobStatus.uploading → r ∈ s.inFlight
  flightValid : ∀ r ∈ s.inFlight, r < s.jobs.length

theorem pidAt_eq_of_pid_map {s s' : QueueState}
    (h : ∀ r : Nat, ((s'.jobs[r]?).map (·.photoId)) = ((s.jobs[r]?).map (·.photoId)))
    (r : Nat) : pidAt s' r = pidAt s r := by
  unfold pidAt jobAt
  rw [h r]

theorem inv_startUpload {s : QueueState} {r : Nat} {j : UploadJob} {now : Nat}
    (hI : SchedInv s) (hg : getNextJob s = some (r, j))
    (hlen : s.activeUploads.length < MAX_CONCURRENT_UPLOADS) :
    SchedInv (startUpload s r j.photoId now) := by
  obtain ⟨hjr, -, hpend, hnp⟩ := admission_facts hg
  have hpid : pidAt s r = j.photoId := by
    unfold pidAt jobAt
    rw [hjr]
    rfl
  have hrf : r ∉ s.inFlight := by
    intro hr
    apply hnp
    rw [hI.actEq, ← hpid]
    exact List.mem_map_of_mem _ hr
  have hcont : ¬ (s.activeUploads.contains j.photoId = true) := by
    simp [List.contains]
    exact hnp
  have hmap : ∀ r' : Nat, (((startUpload s r j.photoId now).jobs[r']?).map (·.photoId))
      = ((s.jobs[r']?).map (·.photoId)) := by
    intro r'
    unfold startUpload
    dsimp only
    apply pid_getElem?_listModify
    intro j'
    rfl
  have hpidAt : ∀ r', pidAt (startUpload s r j.photoId now) r' = pidAt s r' :=
    pidAt_eq_of_pid_map hmap
  constructor
  · show (if s.activeUploads.contains j.photoId then s.activeUploads
        else j.photoId :: s.activeUploads) = _
    rw [if_neg hcont]
    show j.photoId :: s.activeUploads
        = (r :: s.inFlight).map (pidAt (startUpload s r j.photoId now))
    rw [List.map_cons, hpidAt r, hpid, List.map_congr_left (fun a _ => hpidAt a), hI.actEq]
  · show (if s.activeUploads.contains j.photoId then s.activeUploads
        else j.photoId :: s.activeUploads).Nodup
    rw [if_neg hcont]
    exact List.nodup_cons.mpr ⟨hnp, hI.actNodup⟩
  · show (if s.activeUploads.contains j.photoId then s.activeUploads
        else j.photoId :: s.activeUploads).length ≤ MAX_CONCURRENT_UPLOADS
    rw [if_neg hcont]
    simp only [List.length_cons]
    omega
  · intro r' h'
    show r' ∈ r :: s.inFlight
    by_cases he : r' = r
    · exact he ▸ List.mem_cons_self _ _
    · apply List.mem_cons_of_mem
      apply hI.upFlight r'
      unfold statusAt jobAt at h' ⊢
      unfold startUpload at h'
      dsimp only at h'
      rw [listModify_getElem?_ne _ _ _ he] at h'
      exact h'
  · intro r' hr'
    show r' < (listModify s.jobs r _).length
    rw [listModify_length]
    rcases List.mem_cons.mp hr' with he | hm
    · exact he ▸ getElem?_some_lt hjr
    · exact hI.flightValid r' hm

theorem inv_processQueue {s : QueueState} (hI : SchedInv s) (now : Nat) :
    SchedInv (processQueue s now) :=
  processQueueAux_ind
    (fun _ _ _ _ hP hg hlen _ => inv_startUpload hP hg hlen)
    s.uploadQueue.length s now hI

theorem schedInv_modify_aux {s : QueueState} (hI : SchedInv s) (r0 : Nat)
    (f : UploadJob → UploadJob) (hfp : ∀ j, (f j).photoId = j.photoId)
    (hfs : ∀ j, (f j).status ≠ JobStatus.uploading) :
    SchedInv { s with jobs := listModify s.jobs r0 f } := by
  constructor
  · show s.activeUploads = _
    rw [hI.actEq]
    apply List.map_congr_left
    intro a ha
    unfold pidAt jobAt
    dsimp only
    rw [pid_getElem?_listModify hfp a]
  · exact hI.actNodup
  · exact hI.actLen
  · intro r h'
    unfold statusAt jobAt at h'
    dsimp only at h'
    show r ∈ s.inFlight
    by_cases he : r = r0
    · subst he
      rw [listModify_getElem?_self] at h'
      exfalso
      cases hj : s.jobs[r]? with
      | none => rw [hj] at h'; simp at h'
      | some j =>
        rw [hj] at h'
        simp at h'
        exact hfs j h'
    · rw [listModify_getElem?_ne _ _ _ he] at h'
      exact hI.upFlight r h'
  · intro r hr
    show r < (listModify s.jobs r0 f).length
    rw [listModify_length]
    exact hI.flightValid r hr

theorem schedInv_push {s : QueueState} (hI : SchedInv s) (pid iid : String) (now : Nat) :
    SchedInv { s with jobs := s.jobs ++ [mkJob pid iid now],
                      uploadQueue := s.uploadQueue ++ [s.jobs.length] } := by
  have hmap : ∀ r : Nat, r < s.jobs.length →
      (s.jobs ++ [mkJob pid iid now])[r]? = s.jobs[r]? := by
    intro r hr
    exact List.getElem?_append_left hr
  constructor
  · show s.activeUploads = _
    rw [hI.actEq]
    apply List.map_congr_left
    intro a ha
    unfold pidAt jobAt
    dsimp only
    rw [hmap a (hI.flightValid a ha)]
  · exact hI.actNodup
  · exact hI.actLen
  · intro r h'
    unfold statusAt jobAt at h'
    dsimp only at h'
    show r ∈ s.inFlight
    by_cases hr : r < s.jobs.length
    · rw [hmap r hr] at h'
      exact hI.upFlight r h'
    · exfalso
      by_cases hre : r = s.jobs.length
      · subst hre
        rw [List.getElem?_concat_length] at h'
        simp [mkJob] at h'
      · have hnone : (s.jobs ++ [mkJob pid iid now])[r]? = none := by
          apply List.getElem?_eq_none
          simp only [List.length_append, List.length_cons, List.length_nil]
          omega
        rw [hnone] at h'
        simp at h'
  · intro r hr
    show r < (s.jobs ++ [mkJob pid iid now]).length
    have := hI.flightValid r hr
    simp only [List.length_append, List.length_cons, List.length_nil]
    omega

theorem schedInv_addPhotoToQueue {s : QueueState} (hI : SchedInv s)
    (pid iid : String) (now : Nat) : SchedInv (addPhotoToQueue s pid iid now) :=
  inv_processQueue (schedInv_push hI pid iid now) now

theorem schedInv_retryUpload {s : QueueState} (hI : SchedInv s) (pid : String) (now : Nat) :
    SchedInv (retryUpload s pid now) := by
  unfold retryUpload
  cases hf : (queueJobs s).find? (fun rj => rj.2.photoId == pid) with
  | none => exact hI
  | some rj =>
    obtain ⟨r0, j0⟩ := rj
    dsimp only
    apply inv_processQueue _ now
    apply schedInv_modify_aux hI r0 retryReset (fun _ => rfl)
    intro j hc
    simp [retryReset] at hc

theorem schedInv_finishSuccess {s : QueueState} (hI : SchedInv s) {r : Nat}
    (hr : r ∈ s.inFlight) : SchedInv (finishSuccess s r) := by
  have hlt := hI.flightValid r hr
  obtain ⟨j, hj⟩ : ∃ j, s.jobs[r]? = some j := by
    rw [List.getElem?_eq_getElem hlt]
    exact ⟨_, rfl⟩
  have hnodupmap : (s.inFlight.map (pidAt s)).Nodup := hI.actEq ▸ hI.actNodup
  have hpid : pidAt s r = j.photoId := by
    unfold pidAt jobAt
    rw [hj]
    rfl
  have hmap : ∀ x : Nat,
      ((listModify s.jobs r (fun j' => { j' with status := JobStatus.completed }))[x]?).map
        (·.photoId) = (s.jobs[x]?).map (·.photoId) := by
    intro x
    apply pid_getElem?_listModify
    intro j'
    rfl
  unfold finishSuccess
  rw [hj]
  dsimp only
  constructor
  · show s.activeUploads.erase j.photoId = _
    rw [hI.actEq, ← hpid, ← map_erase_of_nodup_map hnodupmap hr]
    apply List.map_congr_left
    intro a ha
    unfold pidAt jobAt
    dsimp only
    rw [hmap a]
  · exact hI.actNodup.erase _
  · calc (s.activeUploads.erase j.photoId).length
        ≤ s.activeUploads.length := (s.activeUploads.erase_sublist _).length_le
      _ ≤ MAX_CONCURRENT_UPLOADS := hI.actLen
  · intro r' h'
    unfold statusAt jobAt at h'
    dsimp only at h'
    show r' ∈ s.inFlight.erase r
    by_cases he : r' = r
    · subst he
      rw [listModify_getElem?_self, hj] at h'
      simp at h'
    · rw [listModify_getElem?_ne _ _ _ he] at h'
      exact (List.mem_erase_of_ne he).mpr (hI.upFlight r' h')
  · intro r' hr'
    show r' < (listModify s.jobs r _).length
    rw [listModify_length]
    exact hI.flightValid r' (List.mem_of_mem_erase hr')

theorem schedInv_applyFailure {s : QueueState} (hI : SchedInv s) {r : Nat}
    (hr : r ∈ s.inFlight) (msg : String) (now : Nat) :
    SchedInv (applyFailure s r msg now) := by
  have hlt := hI.flightValid r hr
  obtain ⟨j, hj⟩ : ∃ j, s.jobs[r]? = some j := by
    rw [List.getElem?_eq_getElem hlt]
    exact ⟨_, rfl⟩
  have hnodupmap : (s.inFlight.map (pidAt s)).Nodup := hI.actEq ▸ hI.actNodup
  have hpid : pidAt s r = j.photoId := by
    unfold pidAt jobAt
    rw [hj]
    rfl
  have hmap : ∀ x : Nat,
      ((listModify s.jobs r (fun j' => handleUploadFailure j' msg now))[x]?).map
        (·.photoId) = (s.jobs[x]?).map (·.photoId) := by
    intro x
    apply pid_getElem?_listModify
    intro j'
    exact handleUploadFailure_photoId j' msg now
  unfold applyFailure
  rw [hj]
  dsimp only
  constructor
  · show s.activeUploads.erase j.photoId = _
    rw [hI.actEq, ← hpid, ← map_erase_of_nodup_map hnodupmap hr]
    apply List.map_congr_left
    intro a ha
    unfold pidAt jobAt
    dsimp only
    rw [hmap a]
  · exact hI.actNodup.erase _
  · calc (s.activeUploads.erase j.photoId).length
        ≤ s.activeUploads.length := (s.activeUploads.erase_sublist _).length_le
      _ ≤ MAX_CONCURRENT_UPLOADS := hI.actLen
  · intro r' h'
    unfold statusAt jobAt at h'
    dsimp only at h'
    show r' ∈ s.inFlight.erase r
    by_cases he : r' = r
    · subst he
      rw [listModify_getElem?_self, hj] at h'
      simp [handleUploadFailure_status] at h'
    · rw [listModify_getElem?_ne _ _ _ he] at h'
      exact (List.mem_erase_of_ne he).mpr (hI.upFlight r' h')
  · intro r' hr'
    show r' < (listModify s.jobs r _).length
    rw [listModify_length]
    exact hI.flightValid r' (List.mem_of_mem_erase hr')

theorem schedInv_applyEvent {s : QueueState} (hI : SchedInv s) {e : Event}
    (he : e.isRemove = false) : SchedInv (applyEvent s e) := by
  cases e with
  | enqueue pid iid now => exact schedInv_addPhotoToQueue hI pid iid now
  | remove pid => simp [Event.isRemove] at he
  | retry pid now => exact schedInv_retryUpload hI pid now
  | success r =>
    show SchedInv (if s.inFlight.contains r then finishSuccess s r else s)
    by_cases hr : s.inFlight.contains r = true
    · rw [if_pos hr]
      apply schedInv_finishSuccess hI
      simpa [List.contains] using hr
    · rw [if_neg hr]
      exact hI
  | fail r msg now =>
    show SchedInv (if s.inFlight.contains r
      then processQueue (applyFailure s r msg now) now else s)
    by_cases hr : s.inFlight.contains r = true
    · rw [if_pos hr]
      apply inv_processQueue _ now
      apply schedInv_applyFailure hI _ msg now
      simpa [List.contains] using hr
    · rw [if_neg hr]
      exact hI
  | pass now => exact inv_processQueue hI now

theorem schedInv_reachableNR {s : QueueState} (h : ReachableNR s) : SchedInv s := by
  induction h with
  | init =>
    constructor
    · rfl
    · exact List.nodup_nil
    · simp [initState, MAX_CONCURRENT_UPLOADS]
    · intro r h'
      simp [initState, statusAt, jobAt] at h'
    · intro r hr
      simp [initState] at hr
  | step hok hprev ih => exact schedInv_applyEvent ih hok

/-!  Counting: the number of store records satisfying a predicate equals the
number of store indices satisfying it, which the invariant bounds through
`inFlight`. -/

def qIdx (l : List UploadJob) (p : UploadJob → Bool) (i : Nat) : Bool :=
  ((l[i]?).map p).getD false

theorem countP_eq_filter_range (l : List UploadJob) (p : UploadJob → Bool) :
    l.countP p = ((List.range l.length).filter (qIdx l p)).length := by
  induction l with
  | nil => rfl
  | cons a t ih =>
    have hcomp : (qIdx (a :: t) p) ∘ Nat.succ = qIdx t p := by
      funext i
      simp [qIdx]
    have hq0 : qIdx (a :: t) p 0 = p a := by
      simp [qIdx]
    rw [List.countP_cons, List.length_cons, List.range_succ_eq_map, List.filter_cons,
        List.filter_map, hcomp, hq0]
    cases hpa : p a <;> simp [ih]

theorem qIdx_true_elim {l : List UploadJob} {p : UploadJob → Bool} {i : Nat}
    (h : qIdx l p i = true) : ∃ j, l[i]? = some j ∧ p j = true := by
  unfold qIdx at h
  cases hj : l[i]? with
  | none => rw [hj] at h; simp at h
  | some j =>
    rw [hj] at h
    simp at h
    exact ⟨j, rfl, h⟩

def uploadingCount (s : QueueState) : Nat :=
  s.jobs.countP (fun j => decide (j.status = JobStatus.uploading))

def uploadingCountFor (s : QueueState) (pid : String) : Nat :=
  s.jobs.countP (fun j => decide (j.photoId = pid ∧ j.status = JobStatus.uploading))

theorem uploadingCount_le_of_inv {s : QueueState} (hI : SchedInv s) :
    uploadingCount s ≤ MAX_CONCURRENT_UPLOADS := by
  unfold uploadingCount
  rw [countP_eq_filter_range]
  have hsub : ((List.range s.jobs.length).filter
      (qIdx s.jobs (fun j => decide (j.status = JobStatus.uploading)))) ⊆ s.inFlight := by
    intro i hi
    rcases List.mem_filter.mp hi with ⟨-, hq⟩
    rcases qIdx_true_elim hq with ⟨j, hj, hp⟩
    simp at hp
    apply hI.upFlight i
    unfold statusAt jobAt
    rw [hj]
    simp [hp]
  have hnodupL : ((List.range s.jobs.length).filter
      (qIdx s.jobs (fun j => decide (j.status = JobStatus.uploading)))).Nodup :=
    (List.nodup_range _).filter _
  have hle := (List.subperm_of_subset hnodupL hsub).length_le
  have hlen : s.inFlight.length = s.activeUploads.length := by
    rw [hI.actEq, List.length_map]
  have := hI.actLen
  omega

theorem uploadingCountFor_le_of_inv {s : QueueState} (hI : SchedInv s) (pid : String) :
    uploadingCountFor s pid ≤ 1 := by
  unfold uploadingCountFor
  rw [countP_eq_filter_range]
  apply length_le_one_of_nodup_forall_eq ((List.nodup_range _).filter _)
  intro a ha b hb
  rcases List.mem_filter.mp ha with ⟨-, hqa⟩
  rcases List.mem_filter.mp hb with ⟨-, hqb⟩
  rcases qIdx_true_elim hqa with ⟨ja, hja, hpa⟩
  rcases qIdx_true_elim hqb with ⟨jb, hjb, hpb⟩
  simp at hpa hpb
  have hain : a ∈ s.inFlight := by
    apply hI.upFlight a
    unfold statusAt jobAt
    rw [hja]
    simp [hpa.2]
  have hbin : b ∈ s.inFlight := by
    apply hI.upFlight b
    unfold statusAt jobAt
    rw [hjb]
    simp [hpb.2]
  apply List.inj_on_of_nodup_map (hI.actEq ▸ hI.actNodup) hain hbin
  unfold pidAt jobAt
  rw [hja, hjb]
  simp [hpa.1, hpb.1]

/-!  The per-job budget invariant: `maxAttempts` is the constant 5,
`attempts` never exceeds it, and a `pending` job always has `attempts = 0`
(fresh, or reset by `retryUpload`; `handleUploadFailure` never yields
`pending`). -/

abbrev JobWF (j : UploadJob) : Prop :=
  j.maxAttempts = MAX_RETRY_ATTEMPTS ∧ j.attempts ≤ j.maxAttempts ∧
    (j.status = JobStatus.pending → j.attempts = 0)

abbrev ListWF (l : List UploadJob) : Prop :=
  ∀ (r : Nat) (j : UploadJob), l[r]? = some j → JobWF j

abbrev StoreWF (s : QueueState) : Prop := ListWF s.jobs

theorem listWF_listModify {l : List UploadJob} {r0 : Nat} {f : UploadJob → UploadJob}
    (hW : ListWF l) (hf : ∀ j, JobWF j → JobWF (f j)) : ListWF (listModify l r0 f) := by
  refine fun r j hj => ?_
  by_cases he : r = r0
  · subst he
    rw [listModify_getElem?_self] at hj
    cases hj0 : l[r]? with
    | none => rw [hj0] at hj; simp at hj
    | some j0 =>
      rw [hj0] at hj
      simp at hj
      exact hj ▸ hf j0 (hW r j0 hj0)
  · rw [listModify_getElem?_ne _ _ _ he] at hj
    exact hW r j hj

theorem jobWF_mkJob (pid iid : String) (now : Nat) : JobWF (mkJob pid iid now) := by
  refine ⟨rfl, ?_, fun _ => rfl⟩
  show (0 : Nat) ≤ MAX_RETRY_ATTEMPTS
  simp [MAX_RETRY_ATTEMPTS]

theorem storeWF_startUpload {s : QueueState} {r : Nat} {j : UploadJob} {now : Nat}
    (hW : StoreWF s) (hg : getNextJob s = some (r, j)) :
    StoreWF (startUpload s r j.photoId now) := by
  obtain ⟨hjr, -, hpend, -⟩ := admission_facts hg
  refine fun r' j' hj' => ?_
  unfold startUpload at hj'
  dsimp only at hj'
  by_cases he : r' = r
  · subst he
    rw [listModify_getElem?_self, hjr] at hj'
    simp at hj'
    have hWj := hW r' j hjr
    subst hj'
    refine ⟨hWj.1, ?_, fun hc => by simp at hc⟩
    show j.attempts + 1 ≤ j.maxAttempts
    have h0 : j.attempts = 0 := hWj.2.2 hpend
    rw [h0, hWj.1]
    simp [MAX_RETRY_ATTEMPTS]
  · rw [listModify_getElem?_ne _ _ _ he] at hj'
    exact hW r' j' hj'

theorem storeWF_processQueue {s : QueueState} (hW : StoreWF s) (now : Nat) :
    StoreWF (processQueue s now) :=
  processQueueAux_ind
    (fun _ _ _ _ hP hg _ _ => storeWF_startUpload hP hg)
    s.uploadQueue.length s now hW

theorem jobWF_retryReset (j : UploadJob) (h : JobWF j) : JobWF (retryReset j) :=
  ⟨h.1, by simp [retryReset], fun _ => rfl⟩

theorem jobWF_handleUploadFailure (j : UploadJob) (msg : String) (now : Nat)
    (h : JobWF j) : JobWF (handleUploadFailure j msg now) := by
  refine ⟨?_, ?_, ?_⟩
  · rw [handleUploadFailure_maxAttempts]
    exact h.1
  · rw [handleUploadFailure_attempts, handleUploadFailure_maxAttempts]
    exact h.2.1
  · rw [handleUploadFailure_status]
    intro hc
    simp at hc

theorem jobWF_completed (j : UploadJob) (h : JobWF j) :
    JobWF { j with status := JobStatus.completed } :=
  ⟨h.1, h.2.1, fun hc => by simp at hc⟩

theorem storeWF_applyEvent {s : QueueState} (hW : StoreWF s) (e : Event) :
    StoreWF (applyEvent s e) := by
  cases e with
  | enqueue pid iid now =>
    apply storeWF_processQueue _ now
    show ListWF (s.jobs ++ [mkJob pid iid now])
    refine fun r j hj => ?_
    by_cases hr : r < s.jobs.length
    · rw [List.getElem?_append_left hr] at hj
      exact hW r j hj
    · by_cases hre : r = s.jobs.length
      · subst hre
        rw [List.getElem?_concat_length] at hj
        cases hj
        exact jobWF_mkJob pid iid now
      · exfalso
        have hnone : (s.jobs ++ [mkJob pid iid now])[r]? = none := by
          apply List.getElem?_eq_none
          simp only [List.length_append, List.length_cons, List.length_nil]
          omega
        rw [hnone] at hj
        simp at hj
  | remove pid => exact hW
  | retry pid now =>
    show StoreWF (retryUpload s pid now)
    unfold retryUpload
    cases hf : (queueJobs s).find? (fun rj => rj.2.photoId == pid) with
    | none => exact hW
    | some rj =>
      obtain ⟨r0, j0⟩ := rj
      dsimp only
      apply storeWF_processQueue _ now
      exact listWF_listModify hW jobWF_retryReset
  | success r =>
    show StoreWF (if s.inFlight.contains r then finishSuccess s r else s)
    by_cases hr : s.inFlight.contains r = true
    · rw [if_pos hr]
      unfold finishSuccess
      cases hj : s.jobs[r]? with
      | none => exact hW
      | some j =>
        dsimp only
        exact listWF_listModify hW jobWF_completed
    · rw [if_neg hr]
      exact hW
  | fail r msg now =>
    show StoreWF (if s.inFlight.contains r
      then processQueue (applyFailure s r msg now) now else s)
    by_cases hr : s.inFlight.contains r = true
    · rw [if_pos hr]
      apply storeWF_processQueue _ now
      unfold applyFailure
      exact listWF_listModify hW (fun j => jobWF_handleUploadFailure j msg now)
    · rw [if_neg hr]
      exact hW
  | pass now => exact storeWF_processQueue hW now

theorem storeWF_reachable {s : QueueState} (h : Reachable s) : StoreWF s := by
  induction h with
  | init =>
    refine fun r j hj => ?_
    simp [initState] at hj
  | step hok hprev ih => exact storeWF_applyEvent ih _

/-!  Behavioral lemmas about a single processing pass. -/

theorem proj_getElem?_listModify {β : Type} {g : UploadJob → β} {l : List UploadJob}
    {r0 : Nat} {f : UploadJob → UploadJob} (hf : ∀ j, g (f j) = g j) (r : Nat) :
    ((listModify l r0 f)[r]?).map g = (l[r]?).map g := by
  by_cases h : r = r0
  · subst h
    rw [listModify_getElem?_self]
    cases l[r]? <;> simp [hf]
  · rw [listModify_getElem?_ne _ _ _ h]

/-- If the selected top candidate is blocked by a future `nextRetryAt`, the
pass stops and changes nothing, whatever other candidates exist. -/
theorem processQueueAux_stop {s : QueueState} {r : Nat} {j : UploadJob} {now : Nat}
    (hg : getNextJob s = some (r, j)) (hb : retryBlocked j now = true) (fuel : Nat) :
    processQueueAux s now fuel = s := by
  cases fuel with
  | zero => rfl
  | succ n =>
    unfold processQueueAux
    by_cases h1 : s.uploadQueue.length = 0
    · rw [if_pos h1]
    · rw [if_neg h1]
      by_cases h2 : MAX_CONCURRENT_UPLOADS ≤ s.activeUploads.length
      · rw [if_pos h2]
      · rw [if_neg h2, hg]
        dsimp only
        rw [if_pos hb]

theorem processQueue_stopped {s : QueueState} {r : Nat} {j : UploadJob} (now : Nat)
    (hg : getNextJob s = some (r, j)) (hb : retryBlocked j now = true) :
    processQueue s now = s :=
  processQueueAux_stop hg hb _

/-- A pass over a state with no selectable candidate changes nothing. -/
theorem processQueueAux_no_candidates {s : QueueState} (hc : candidatePairs s = [])
    (now fuel : Nat) : processQueueAux s now fuel = s := by
  have hg : getNextJob s = none := by
    unfold getNextJob sortJobs
    rw [hc]
    rfl
  cases fuel with
  | zero => rfl
  | succ n =>
    unfold processQueueAux
    by_cases h1 : s.uploadQueue.length = 0
    · rw [if_pos h1]
    · rw [if_neg h1]
      by_cases h2 : MAX_CONCURRENT_UPLOADS ≤ s.activeUploads.length
      · rw [if_pos h2]
      · rw [if_neg h2, hg]

theorem processQueue_no_candidates {s : QueueState} (hc : candidatePairs s = [])
    (now : Nat) : processQueue s now = s :=
  processQueueAux_no_candidates hc now _

theorem statusAt_startUpload_preserved {s : QueueState} {r : Nat} {j : UploadJob}
    {r0 : Nat} {now : Nat} (h : statusAt s r0 = some JobStatus.uploading)
    (hg : getNextJob s = some (r, j)) :
    statusAt (startUpload s r j.photoId now) r0 = some JobStatus.uploading := by
  obtain ⟨hjr, -, hpend, -⟩ := admission_facts hg
  have hne : r0 ≠ r := by
    intro he
    rw [he] at h
    unfold statusAt jobAt at h
    rw [hjr] at h
    simp [hpend] at h
  unfold statusAt jobAt at h ⊢
  unfold startUpload
  dsimp only
  rw [listModify_getElem?_ne _ _ _ hne]
  exact h

/-- When the top candidate is eligible and a slot is free, the pass admits it:
afterwards its record is `uploading`. -/
theorem processQueue_admits_top {s : QueueState} {r : Nat} {j : UploadJob} {now : Nat}
    (hg : getNextJob s = some (r, j)) (hb : retryBlocked j now = false)
    (hcap : s.activeUploads.length < MAX_CONCURRENT_UPLOADS) :
    statusAt (processQueue s now) r = some JobStatus.uploading := by
  have hnq := getNextJob_queue_ne_nil hg
  obtain ⟨n, hq⟩ : ∃ n, s.uploadQueue.length = n + 1 := by
    cases h : s.uploadQueue.length with
    | zero => exact absurd h hnq
    | succ m => exact ⟨m, rfl⟩
  unfold processQueue
  rw [hq]
  unfold processQueueAux
  rw [if_neg (by omega), if_neg (by omega), hg]
  dsimp only
  rw [if_neg (by simp [hb])]
  have hinit : statusAt (startUpload s r j.photoId now) r = some JobStatus.uploading := by
    obtain ⟨hjr, -, -, -⟩ := admission_facts hg
    unfold statusAt jobAt startUpload
    dsimp only
    rw [listModify_getElem?_self, hjr]
    rfl
  exact processQueueAux_ind
    (fun s' r' j' now' hP hg' _ _ => statusAt_startUpload_preserved hP hg')
    n _ now hinit

def jobKey (j : UploadJob) : String × String := (j.id, j.photoId)

/-- A pass never changes the queue, the number of records, or any record's
identity (job id and photo id): it only admits jobs. -/
theorem processQueueAux_preserves (fuel : Nat) :
    ∀ s now, (processQueueAux s now fuel).uploadQueue = s.uploadQueue ∧
      (processQueueAux s now fuel).jobs.length = s.jobs.length ∧
      ∀ r : Nat, ((processQueueAux s now fuel).jobs[r]?).map jobKey
        = (s.jobs[r]?).map jobKey := by
  induction fuel with
  | zero => exact fun s now => ⟨rfl, rfl, fun r => rfl⟩
  | succ n ih =>
    intro s now
    unfold processQueueAux
    by_cases h1 : s.uploadQueue.length = 0
    · rw [if_pos h1]
      exact ⟨rfl, rfl, fun r => rfl⟩
    · rw [if_neg h1]
      by_cases h2 : MAX_CONCURRENT_UPLOADS ≤ s.activeUploads.length
      · rw [if_pos h2]
        exact ⟨rfl, rfl, fun r => rfl⟩
      · rw [if_neg h2]
        cases hg : getNextJob s with
        | none => exact ⟨rfl, rfl, fun r => rfl⟩
        | some rj =>
          obtain ⟨r, j⟩ := rj
          dsimp only
          by_cases hrb : retryBlocked j now = true
          · rw [if_pos hrb]
            exact ⟨rfl, rfl, fun r' => rfl⟩
          · rw [if_neg hrb]
            obtain ⟨ha, hb2, hc2⟩ := ih (startUpload s r j.photoId now) now
            refine ⟨ha, ?_, ?_⟩
            · rw [hb2]
              show (listModify s.jobs r _).length = s.jobs.length
              exact listModify_length _ _ _
            · intro r'
              rw [hc2 r']
              show ((listModify s.jobs r _)[r']?).map jobKey = (s.jobs[r']?).map jobKey
              apply proj_getElem?_listModify
              intro j'
              rfl

/-!  Registry lemmas for the progress-callback map. -/

theorem mapLookup_mapDelete_self (m : List (String × Nat)) (k : String) :
    mapLookup (mapDelete m k) k = none := by
  induction m with
  | nil => rfl
  | cons kv t ih =>
    show mapLookup (List.filter _ (kv :: t)) k = none
    rw [List.filter_cons]
    cases h : (kv.1 == k) with
    | true =>
      simp only [h, Bool.not_true]
      exact ih
    | false =>
      simp only [h, Bool.not_false]
      show mapLookup (kv :: mapDelete t k) k = none
      unfold mapLookup at ih ⊢
      rw [List.find?_cons_of_neg _ (by simp [h])]
      exact ih

theorem mapLookup_mapSet_self (m : List (String × Nat)) (k : String) (v : Nat) :
    mapLookup (mapSet m k v) k = some v := by
  induction m with
  | nil => simp [mapSet, mapLookup]
  | cons kv t ih =>
    cases h : (kv.1 == k) with
    | true =>
      have hany : (kv :: t).any (fun kv' => kv'.1 == k) = true := by
        simp [List.any_cons, h]
      unfold mapSet
      rw [if_pos hany, List.map_cons, if_pos h]
      unfold mapLookup
      rw [List.find?_cons_of_pos _ (by simp)]
      rfl
    | false =>
      have hany : (kv :: t).any (fun kv' => kv'.1 == k) = t.any (fun kv' => kv'.1 == k) := by
        simp [List.any_cons, h]
      unfold mapSet
      rw [hany]
      cases h2 : t.any (fun kv' => kv'.1 == k) with
      | true =>
        rw [if_pos rfl, List.map_cons, if_neg (by simp [h])]
        have hms : mapSet t k v = t.map (fun kv' => if kv'.1 == k then (k, v) else kv') := by
          unfold mapSet
          rw [if_pos h2]
        rw [← hms]
        unfold mapLookup at ih ⊢
        rw [List.find?_cons_of_neg _ (by simp [h])]
        exact ih
      | false =>
        rw [if_neg (by simp)]
        show mapLookup (kv :: (t ++ [(k, v)])) k = some v
        have hms : mapSet t k v = t ++ [(k, v)] := by
          unfold mapSet
          rw [if_neg (by simp [h2])]
        rw [← hms]
        unfold mapLookup at ih ⊢
        rw [List.find?_cons_of_neg _ (by simp [h])]
        exact ih

/-!  Claim theorems. -/

def traceC1 : List Event := [Event.enqueue "p" "i" 0, Event.fail 0 "net" 0]

/-- C1: the claim says that after a transfer failure with
`attempts < maxAttempts` the job is `pending` with a future `nextRetryAt` and
re-enters selection once the delay elapses.  Evaluating the code on the
failing input (one enqueued photo whose first transfer attempt fails) shows
the divergence: `handleUploadFailure` leaves `status = failed` (it never
restores `pending`), so although `nextRetryAt = now + 1000` is scheduled and
the budget is not exhausted, `getNextJob` — which selects only `pending`
jobs — returns none, and every later processing pass, at any time whatsoever,
leaves the state unchanged: the job is never retried. -/
theorem C1_failed_job_never_reselected :
    ((jobAt (applyEvents initState traceC1) 0).map
        (fun j => (j.status, j.attempts, j.maxAttempts, j.nextRetryAt))
      = some (JobStatus.failed, 1, 5, some 1000)) ∧
    getNextJob (applyEvents initState traceC1) = none ∧
    ∀ now : Nat, processQueue (applyEvents initState traceC1) now
      = applyEvents initState traceC1 := by
  refine ⟨rfl, rfl, fun now => processQueue_no_candidates ?_ now⟩
  rfl

def traceC2 : List Event := [Event.enqueue "p" "i" 0, Event.enqueue "p" "i" 0]

/-- C2 counterexample: enqueuing the same photo id twice while the first job
is still active creates a second queued job and a second persisted record
(both with the job id string `upload_p`), refuting the claimed idempotence. -/
theorem C2_counterexample_duplicate_jobs :
    (applyEvents initState traceC2).jobs.countP
        (fun j => decide (j.photoId = "p")) = 2 ∧
    (applyEvents initState traceC2).uploadQueue.length = 2 ∧
    (applyEvents initState traceC2).jobs.map (·.id) = ["upload_p", "upload_p"] := by
  exact ⟨rfl, rfl, rfl⟩

/-- C2 amended: `addPhotoToQueue` performs no duplicate check and returns no
job id: every call appends one fresh record (id `upload_<photoId>`) to the
store and one entry to the queue, whatever jobs already exist for that
photo id. -/
theorem C2_enqueue_always_appends (s : QueueState) (pid iid : String) (now : Nat) :
    (addPhotoToQueue s pid iid now).jobs.length = s.jobs.length + 1 ∧
    (addPhotoToQueue s pid iid now).uploadQueue = s.uploadQueue ++ [s.jobs.length] ∧
    ((addPhotoToQueue s pid iid now).jobs[s.jobs.length]?).map jobKey
      = some ("upload_" ++ pid, pid) := by
  obtain ⟨ha, hb, hc⟩ := processQueueAux_preserves
    (s.uploadQueue ++ [s.jobs.length]).length
    { s with jobs := s.jobs ++ [mkJob pid iid now],
             uploadQueue := s.uploadQueue ++ [s.jobs.length] } now
  refine ⟨?_, ?_, ?_⟩
  · show (processQueueAux _ now _).jobs.length = s.jobs.length + 1
    rw [hb]
    show (s.jobs ++ [mkJob pid iid now]).length = s.jobs.length + 1
    simp
  · exact ha
  · show ((processQueueAux _ now _).jobs[s.jobs.length]?).map jobKey = _
    rw [hc s.jobs.length]
    show ((s.jobs ++ [mkJob pid iid now])[s.jobs.length]?).map jobKey = _
    rw [List.getElem?_concat_length]
    rfl

def traceC3 : List Event :=
  [Event.enqueue "p" "i" 0, Event.remove "p", Event.enqueue "p" "i" 1]

/-- C3 counterexample: cancel (`removePhotoFromQueue`) of an in-flight upload
only clears the `activeUploads` marker — the flight keeps running with
`status = uploading` — so re-enqueuing the same photo id starts a second
concurrent upload: two jobs for photo `p` are `uploading` at once. -/
theorem C3_counterexample_two_uploads_same_photo :
    uploadingCountFor (applyEvents initState traceC3) "p" = 2 ∧
    ¬ (uploadingCountFor (applyEvents initState traceC3) "p" ≤ 1) := by
  exact ⟨rfl, by decide⟩

/-- C3 amended: for every state reachable through enqueue, retry, completion,
failure and bare processing passes — with no cancel — at most one job per
photo id is `uploading`; the cancel/re-enqueue escape above is the only way
to break it. -/
theorem C3_single_flight_without_cancel {s : QueueState} (h : ReachableNR s)
    (pid : String) : uploadingCountFor s pid ≤ 1 :=
  uploadingCountFor_le_of_inv (schedInv_reachableNR h) pid

/-- C3 witness: the amended theorem applied to a concrete reachable state
(two photos enqueued, one in flight per photo). -/
theorem C3_single_flight_witness :
    uploadingCountFor (applyEvent (applyEvent initState (Event.enqueue "p" "i" 0))
      (Event.enqueue "q" "i" 0)) "p" ≤ 1 := by
  apply C3_single_flight_without_cancel
  show ReachableW (fun e => e.isRemove = false) _
  exact ReachableW.step (by rfl) (ReachableW.step (by rfl) ReachableW.init)

/-- C4: at every state reachable through enqueue / retry / completion /
failure events (the events the claim quantifies over) the number of
`uploading` jobs never exceeds `MAX_CONCURRENT_UPLOADS = 2`. -/
theorem C4_concurrency_cap {s : QueueState} (h : ReachableNR s) :
    uploadingCount s ≤ MAX_CONCURRENT_UPLOADS :=
  uploadingCount_le_of_inv (schedInv_reachableNR h)

/-- C4 witness: three photos enqueued back to back; the cap admits only two. -/
theorem C4_concurrency_cap_witness :
    uploadingCount (applyEvent (applyEvent (applyEvent initState
      (Event.enqueue "a" "i" 0)) (Event.enqueue "b" "i" 0))
      (Event.enqueue "c" "i" 0)) ≤ MAX_CONCURRENT_UPLOADS := by
  apply C4_concurrency_cap
  show ReachableW (fun e => e.isRemove = false) _
  exact ReachableW.step (by rfl)
    (ReachableW.step (by rfl) (ReachableW.step (by rfl) ReachableW.init))

def traceC5 : List Event := [Event.enqueue "p" "i" 0, Event.fail 0 "net" 0]

/-- C5: the bound `attempts ≤ maxAttempts` does hold at every reachable
state (first conjunct).  The second half of the claim fails on the code:
after a single failure with `attempts = 1 < maxAttempts = 5` — no budget
exhaustion, and the code has no permanent-failure classification at all —
the job is `failed` and no candidate remains (`candidatePairs = []`), i.e.
the failure is terminal: nothing will ever re-select the job. -/
theorem C5_attempts_bounded_but_terminal_failed_early :
    (∀ s : QueueState, Reachable s → ∀ (r : Nat) (j : UploadJob),
        s.jobs[r]? = some j → j.attempts ≤ j.maxAttempts) ∧
    ((jobAt (applyEvents initState traceC5) 0).map
        (fun j => (j.status, j.attempts, j.maxAttempts))
      = some (JobStatus.failed, 1, 5)) ∧
    candidatePairs (applyEvents initState traceC5) = [] := by
  refine ⟨?_, rfl, rfl⟩
  intro s hs r j hj
  exact (storeWF_reachable hs r j hj).2.1

/-- C5 witness: the reachable-state bound applied to the concrete state with
one enqueued photo. -/
theorem C5_witness :
    (applyEvent initState (Event.enqueue "p" "i" 0)).jobs[0]?
        = some { id := "upload_p", photoId := "p", intakeId := "i",
                 status := JobStatus.uploading, priority := 1, createdAt := 0,
                 lastAttempt := some 0, attempts := 1, maxAttempts := 5 } ∧
    (1 : Nat) ≤ 5 := by
  constructor
  · rfl
  · have hb := C5_attempts_bounded_but_terminal_failed_early.1
      (applyEvent initState (Event.enqueue "p" "i" 0))
      (ReachableW.step trivial ReachableW.init) 0
      { id := "upload_p", photoId := "p", intakeId := "i",
        status := JobStatus.uploading, priority := 1, createdAt := 0,
        lastAttempt := some 0, attempts := 1, maxAttempts := 5 } (by rfl)
    exact hb

def jobC6A : UploadJob :=
  { id := "upload_a", photoId := "a", intakeId := "i", status := JobStatus.pending,
    priority := 5, createdAt := 0, attempts := 1, maxAttempts := 5,
    nextRetryAt := some 1000 }

def jobC6B : UploadJob :=
  { id := "upload_b", photoId := "b", intakeId := "i", status := JobStatus.pending,
    priority := 1, createdAt := 0, attempts := 0, maxAttempts := 5 }

def stateC6 : QueueState := ⟨[jobC6A, jobC6B], [0, 1], [], []⟩

/-- C6 counterexample: job B is an eligible pending candidate
(`nextRetryAt` unset), both concurrency slots are free, yet the pass at time
0 admits nothing: the selected top candidate A (priority 5, future
`nextRetryAt = 1000`) makes the loop `break`; ineligible candidates are not
discarded from consideration as the claim states. -/
theorem C6_counterexample_blocked_pass :
    ((1, jobC6B) ∈ candidatePairs stateC6) ∧
    retryBlocked jobC6B 0 = false ∧
    stateC6.activeUploads.length < MAX_CONCURRENT_UPLOADS ∧
    processQueue stateC6 0 = stateC6 ∧
    uploadingCount (processQueue stateC6 0) = 0 := by
  refine ⟨by decide, rfl, by decide, rfl, rfl⟩

/-- C6 amended: each pass repeatedly selects, from the pending jobs with no
in-flight upload for the same photo id, the one sorting first by priority
descending then `createdAt` ascending; future-`nextRetryAt` candidates are
not discarded: if the selected candidate is blocked the entire pass stops,
admitting nothing (first conjunct); if it is eligible and a slot is free it
is admitted and becomes `uploading` (second conjunct); and the selected
candidate always sorts before-or-equal every other candidate (third
conjunct). -/
theorem C6_selection_behavior :
    (∀ (s : QueueState) (now r : Nat) (j : UploadJob),
        getNextJob s = some (r, j) → retryBlocked j now = true →
        processQueue s now = s) ∧
    (∀ (s : QueueState) (now r : Nat) (j : UploadJob),
        getNextJob s = some (r, j) → retryBlocked j now = false →
        s.activeUploads.length < MAX_CONCURRENT_UPLOADS →
        statusAt (processQueue s now) r = some JobStatus.uploading) ∧
    (∀ (s : QueueState) (r : Nat) (j : UploadJob),
        getNextJob s = some (r, j) →
        ∀ k ∈ candidatePairs s, jobLE j k.2 = true) :=
  ⟨fun _ now _ _ hg hb => processQueue_stopped now hg hb,
   fun _ _ _ _ hg hb hcap => processQueue_admits_top hg hb hcap,
   fun _ _ _ hg => getNextJob_le hg⟩

def stateC6W : QueueState := ⟨[jobC6B], [0], [], []⟩

/-- C6 witness: the amended theorem applied to concrete states — an eligible
single candidate is admitted; the blocked state above is left unchanged. -/
theorem C6_selection_witness :
    statusAt (processQueue stateC6W 5) 0 = some JobStatus.uploading ∧
    processQueue stateC6 0 = stateC6 :=
  ⟨C6_selection_behavior.2.1 stateC6W 5 0 jobC6B (by rfl) (by rfl) (by decide),
   C6_selection_behavior.1 stateC6 0 0 jobC6A (by rfl) (by rfl)⟩

/-- C7: on a transient failure with `attempts < maxAttempts` the scheduled
delay is `RETRY_DELAYS[min(attempts-1, 4)]` over the fixed schedule
{1s, 2s, 4s, 8s, 16s}, and the priority update is `min(priority+1, 10)`;
iterating that update `k` times from the initial priority 1 yields
`min(1+k, 10)`, and below the cap the update never decreases priority. -/
theorem C7_backoff_schedule_and_priority (j : UploadJob) (msg : String) (now : Nat)
    (h1 : 1 ≤ j.attempts) (h2 : j.attempts < j.maxAttempts) :
    (handleUploadFailure j msg now).nextRetryAt
      = some (now + ([1000, 2000, 4000, 8000, 16000] : List Nat).getD
          (min (j.attempts - 1) 4) 0) ∧
    (handleUploadFailure j msg now).priority = min (j.priority + 1) 10 ∧
    (∀ k : Nat, (fun p => min (p + 1) 10)^[k] 1 = min (1 + k) 10) ∧
    (∀ p : Nat, p ≤ 10 → p ≤ min (p + 1) 10) := by
  refine ⟨?_, ?_, ?_, ?_⟩
  · unfold handleUploadFailure
    dsimp only
    rw [if_pos h2]
    simp [retryDelay, RETRY_DELAYS]
  · unfold handleUploadFailure
    dsimp only
    rw [if_pos h2]
  · intro k
    induction k with
    | zero => simp
    | succ n ih =>
      rw [Function.iterate_succ_apply', ih]
      omega
  · intro p hp
    omega

def jobC7 : UploadJob :=
  { id := "upload_p", photoId := "p", intakeId := "i", status := JobStatus.uploading,
    priority := 1, createdAt := 0, lastAttempt := some 0, attempts := 1,
    maxAttempts := 5 }

/-- C7 witness: first failure of a fresh job at time 100 schedules the retry
at 1100 (1s backoff) and bumps the priority to 2. -/
theorem C7_witness :
    (handleUploadFailure jobC7 "net" 100).nextRetryAt = some 1100 ∧
    (handleUploadFailure jobC7 "net" 100).priority = 2 := by
  obtain ⟨ha, hb, -, -⟩ :=
    C7_backoff_schedule_and_priority jobC7 "net" 100 (by decide) (by decide)
  exact ⟨ha.trans (by decide), hb.trans (by decide)⟩

def jobC8 : UploadJob :=
  { id := "upload_p", photoId := "p", intakeId := "i", status := JobStatus.uploading,
    priority := 1, createdAt := 0, lastAttempt := some 0, attempts := 1,
    maxAttempts := 5 }

/-- C8 counterexample: the code never classifies failures, so a permanent
failure reported on the first attempt is handled like any other: far from
leaving `nextRetryAt` unset as the claim requires, `handleUploadFailure`
schedules a 1s backoff. -/
theorem C8_counterexample_retry_scheduled :
    (handleUploadFailure jobC8 "permanent: content rejected" 0).nextRetryAt
      = some 1000 ∧
    (handleUploadFailure jobC8 "permanent: content rejected" 0).nextRetryAt ≠ none := by
  refine ⟨by decide, by decide⟩

/-- C8 amended: there is no permanent/transient classification; every
failure on the first attempt (`attempts = 1 < maxAttempts`) marks the job
`failed`, keeps `attempts = 1`, records the error, and sets
`nextRetryAt = now + 1000` — the retry-budget fields are always written.
(The job is nonetheless never auto-retried, since its status is never reset
to `pending`.) -/
theorem C8_first_attempt_failure (j : UploadJob) (msg : String) (now : Nat)
    (h1 : j.attempts = 1) (h2 : 1 < j.maxAttempts) :
    (handleUploadFailure j msg now).status = JobStatus.failed ∧
    (handleUploadFailure j msg now).attempts = 1 ∧
    (handleUploadFailure j msg now).lastError = some msg ∧
    (handleUploadFailure j msg now).nextRetryAt = some (now + 1000) := by
  have hlt : j.attempts < j.maxAttempts := by omega
  refine ⟨handleUploadFailure_status j msg now,
    (handleUploadFailure_attempts j msg now).trans h1, ?_, ?_⟩
  · unfold handleUploadFailure
    dsimp only
    split <;> rfl
  · unfold handleUploadFailure
    dsimp only
    rw [if_pos hlt]
    rw [show retryDelay j.attempts = 1000 from by rw [h1]; rfl]

/-- C8 witness: the amended theorem at the concrete first-failure input. -/
theorem C8_witness :
    (handleUploadFailure jobC8 "permanent: bad content" 50).status
      = JobStatus.failed ∧
    (handleUploadFailure jobC8 "permanent: bad content" 50).nextRetryAt
      = some 1050 := by
  obtain ⟨ha, -, -, hd⟩ :=
    C8_first_attempt_failure jobC8 "permanent: bad content" 50 (by decide) (by decide)
  exact ⟨ha, hd.trans (by decide)⟩

def traceC9a : List Event := [Event.enqueue "p" "i" 0, Event.retry "p" 5]

def traceC9b : List Event :=
  [Event.enqueue "p" "i" 0, Event.fail 0 "net" 0, Event.retry "p" 2000]

/-- C9 counterexample: `retryUpload` checks no status.  Applied to a job that
is `uploading` (first trace) it is not a no-op: the job is mutated to
`pending` with `attempts = 0`.  Applied to a genuinely `failed` job (second
trace) it leaves `lastError` set instead of clearing it. -/
theorem C9_counterexample_mutates_and_keeps_lastError :
    statusAt (applyEvents initState [Event.enqueue "p" "i" 0]) 0
      = some JobStatus.uploading ∧
    ((jobAt (applyEvents initState traceC9a) 0).map (fun j => (j.status, j.attempts))
      = some (JobStatus.pending, 0)) ∧
    ((jobAt (applyEvents initState traceC9b) 0).map (·.lastError)
      = some (some "net")) :=
  ⟨rfl, rfl, rfl⟩

/-- C9 amended: `retryUpload` resets the first queue job with the photo id
whatever its status — `pending`, `attempts = 0`, `nextRetryAt` cleared —
while `lastError` and `priority` are left untouched; it is a no-op exactly
when no queue job has that photo id. -/
theorem C9_retry_resets_regardless_of_status :
    (∀ j : UploadJob, (retryReset j).status = JobStatus.pending ∧
      (retryReset j).attempts = 0 ∧ (retryReset j).nextRetryAt = none ∧
      (retryReset j).lastError = j.lastError ∧ (retryReset j).priority = j.priority) ∧
    (∀ (s : QueueState) (pid : String) (now : Nat),
      (queueJobs s).find? (fun rj => rj.2.photoId == pid) = none →
      retryUpload s pid now = s) := by
  refine ⟨fun j => ⟨rfl, rfl, rfl, rfl, rfl⟩, ?_⟩
  intro s pid now hf
  unfold retryUpload
  rw [hf]

/-- C9 witness: on the empty scheduler no job carries the photo id, and
`retryUpload` is a no-op. -/
theorem C9_witness : retryUpload initState "p" 0 = initState :=
  C9_retry_resets_regardless_of_status.2 initState "p" 0 rfl

/-- C10: the unsubscribe closure returned by `subscribeToProgress` deletes by
photo id, not by callback: after a second subscriber replaces the first for
the same photo id (so notifications target the second callback), invoking
the first subscriber's unsubscribe removes the second subscriber's callback,
leaving the photo id with no observer. -/
theorem C10_unsubscribe_deletes_current (m : List (String × Nat)) (p : String)
    (c1 c2 : Nat) :
    notifyTarget (subscribeToProgress (subscribeToProgress m p c1) p c2) p = some c2 ∧
    notifyTarget (unsubscribeEffect p
      (subscribeToProgress (subscribeToProgress m p c1) p c2)) p = none :=
  ⟨mapLookup_mapSet_self _ p c2, mapLookup_mapDelete_self _ p⟩
